import Mathlib

/-!
Verification development for the chet coding-assistant core.

Shallow embedding of the Rust sources:
  - crates/chet-api/src/retry.rs       (RetryConfig, calculate_delay)
  - crates/chet-api/src/client.rs      (parse_retry_after, classify_error)
  - crates/chet-api/src/sse.rs         (SseParser::feed, parse_block)
  - crates/chet-api/src/stream.rs      (per-chunk lossy UTF-8 decode)
  - crates/chet-types/src/util.rs      (truncate_str)
  - crates/chet-types/src/message.rs   (Message, ContentBlock, serde JSON)
  - crates/chet-permissions/src/matcher.rs (RuleMatcher)
  - crates/chet-permissions/src/engine.rs  (PermissionEngine::check)
  - crates/chet-permissions/src/hooks.rs   (run_hooks, run_single_hook)
  - crates/chet-core/src/agent.rs      (Agent::run turn loop, tool dispatch)

Machine integers are modelled as Nat; Rust f64 arithmetic in retry.rs is
modelled over ℚ (the order of operations — clamping before or after the
jitter multiplication — is what the theorems are about, not rounding).
-/

namespace Chet

/-! ## retry.rs -/

/-- `RetryConfig` from retry.rs.  `backoff_factor : f64` is modelled as ℚ. -/
structure RetryConfig where
  max_retries : Nat
  initial_delay_ms : Nat
  max_delay_ms : Nat
  backoff_factor : ℚ
deriving Repr

/-- `RetryConfig::default()` from retry.rs. -/
def RetryConfig.default : RetryConfig :=
  { max_retries := 2, initial_delay_ms := 1000, max_delay_ms := 60000, backoff_factor := 2 }

/-- `calculate_delay` from retry.rs.  The jitter sample `u` (drawn by
`rand::rng().random_range(0.75..=1.25)` in the source) is passed explicitly.
The `as u64` cast of the non-negative jittered value truncates toward zero,
i.e. takes the floor; `Int.toNat` of the floor also maps a negative value to
0 exactly as the saturating Rust cast does. -/
def calculate_delay (config : RetryConfig) (attempt : Nat) (retry_after_ms : Option Nat)
    (u : ℚ) : Nat :=
  match retry_after_ms with
  | some server_delay => min server_delay config.max_delay_ms
  | none =>
    let base : ℚ := (config.initial_delay_ms : ℚ) * config.backoff_factor ^ attempt
    let clamped : ℚ := min base (config.max_delay_ms : ℚ)
    let jittered : ℚ := clamped * u
    min (Int.toNat ⌊jittered⌋) config.max_delay_ms

/-- The delay formula as the spec words it for the no-`retry_after` case:
`min(initial_delay_ms * backoff_factor^attempt * u, max_delay_ms)` — the
jitter is applied to the *unclamped* exponential term and the cap is taken
afterwards.  Written from the spec sentence, for comparison with
`calculate_delay`. -/
def spec_delay (config : RetryConfig) (attempt : Nat) (u : ℚ) : Nat :=
  min (Int.toNat ⌊(config.initial_delay_ms : ℚ) * config.backoff_factor ^ attempt * u⌋)
    config.max_delay_ms

/-- The no-`retry_after` delay as the code actually computes it: the
exponential term is clamped to `max_delay_ms` first, then multiplied by the
jitter sample and clamped again. -/
def code_backoff_delay (config : RetryConfig) (attempt : Nat) (u : ℚ) : Nat :=
  min (Int.toNat ⌊min ((config.initial_delay_ms : ℚ) * config.backoff_factor ^ attempt)
        (config.max_delay_ms : ℚ) * u⌋) config.max_delay_ms

/-! ## client.rs: parse_retry_after and classify_error -/

/-- A model of Rust `str::parse::<f64>` restricted to plain (optionally
signed, optionally fractional) decimal literals: `[+-]? digits [. digits]`,
`[+-]? digits .`, or `[+-]? . digits`, with at least one digit and nothing
else.  Exponent and infinity/nan forms accepted by the real parser are out
of scope of the claims; every input of interest to them (an HTTP-date, an
empty header, a word) is rejected by both the model and the real parser. -/
def digitsVal (l : List Char) : Nat :=
  l.foldl (fun acc c => acc * 10 + (c.toNat - 48)) 0

def parseDecimalCore (cs : List Char) : Option ℚ :=
  let digits := fun l : List Char => l.all (·.isDigit)
  match cs.splitOn '.' with
  | [intPart] =>
    if intPart ≠ [] ∧ digits intPart then some ((digitsVal intPart : ℚ)) else none
  | [intPart, fracPart] =>
    if (intPart ≠ [] ∨ fracPart ≠ []) ∧ digits intPart ∧ digits fracPart then
      some ((digitsVal intPart : ℚ) +
        (digitsVal fracPart : ℚ) / ((10 : ℚ) ^ fracPart.length))
    else none
  | _ => none

/-- Sign handling of the f64 parse model. -/
def parseDecimal (s : String) : Option ℚ :=
  match s.data with
  | '-' :: rest => (parseDecimalCore rest).map (fun q => -q)
  | '+' :: rest => parseDecimalCore rest
  | cs => parseDecimalCore cs

/-- `parse_retry_after` from client.rs, with the header already extracted:
`headers.get("retry-after")` is modelled as an `Option String` (absent
header ↦ `none`).  `(secs * 1000.0) as u64` truncates toward zero and
saturates negatives at 0, which `Int.toNat ∘ Int.floor` reproduces on the
values at hand (non-negative ⇒ floor = truncation; negative ⇒ 0). -/
def parse_retry_after (header : Option String) : Option Nat :=
  (header.bind parseDecimal).map (fun secs => Int.toNat ⌊secs * 1000⌋)

/-- `ApiError` from chet-types (the variants classify_error can produce). -/
inductive ApiError where
  | auth (message : String)
  | badRequest (message : String)
  | rateLimited (retry_after_ms : Option Nat)
  | overloaded
  | server (status : Nat) (message : String)
deriving DecidableEq, Repr

/-- `classify_error` from client.rs.  The `message` extracted from the JSON
error body is passed through as a string; the body-JSON probing
(`serde_json::from_str::<ErrorBody>`) is not itself modelled since no claim
touches it. -/
def classify_error (status : Nat) (message : String) (retry_after : Option Nat) : ApiError :=
  if status = 401 then .auth message
  else if status = 400 then .badRequest message
  else if status = 429 then .rateLimited retry_after
  else if status = 529 then .overloaded
  else .server status message

/-! ## util.rs: truncate_str -/

/-- Byte length of a list of codepoints under UTF-8. -/
def utf8Len (l : List Char) : Nat := (l.map Char.utf8Size).sum

/-- The longest prefix (in whole codepoints) whose UTF-8 byte length is at
most `n`.  `floor_char_boundary` in util.rs walks a byte index back to the
previous boundary; since the boundaries of a string are exactly the prefix
sums of its codepoint widths, slicing at `floor_char_boundary(s, n)` yields
exactly this prefix. -/
def takeBytes : Nat → List Char → List Char
  | _, [] => []
  | n, c :: cs => if c.utf8Size ≤ n then c :: takeBytes (n - c.utf8Size) cs else []

/-- `truncate_str` from util.rs over the codepoint model: identity when the
byte length fits, otherwise the slice up to `floor_char_boundary(s, max)`. -/
def truncate_str (s : List Char) (max_bytes : Nat) : List Char :=
  if utf8Len s ≤ max_bytes then s else takeBytes max_bytes s

/-- `truncate_for_display` from agent.rs: appends an ellipsis when the
string was actually truncated (`s.len()` is the byte length). -/
def truncate_for_display (s : List Char) (max_len : Nat) : List Char :=
  if utf8Len s ≤ max_len then s else truncate_str s max_len ++ "...".data

/-! ### truncate_str lemmas -/

theorem takeBytes_isTake : ∀ (n : Nat) (l : List Char), ∃ k, takeBytes n l = l.take k := by
  intro n l
  induction l generalizing n with
  | nil => exact ⟨0, rfl⟩
  | cons c cs ih =>
    by_cases h : c.utf8Size ≤ n
    · obtain ⟨k, hk⟩ := ih (n - c.utf8Size)
      exact ⟨k + 1, by simp [takeBytes, h, hk]⟩
    · exact ⟨0, by simp [takeBytes, h]⟩

theorem takeBytes_utf8Len_le : ∀ (n : Nat) (l : List Char), utf8Len (takeBytes n l) ≤ n := by
  intro n l
  induction l generalizing n with
  | nil => simp [takeBytes, utf8Len]
  | cons c cs ih =>
    by_cases h : c.utf8Size ≤ n
    · have ih' := ih (n - c.utf8Size)
      simp only [takeBytes, h, if_true]
      simp only [utf8Len, List.map_cons, List.sum_cons] at ih' ⊢
      omega
    · simp [takeBytes, h, utf8Len]

/-! ## JSON values (serde_json::Value) -/

/-- `serde_json::Value`.  Numbers are modelled as integers; no claim
depends on number precision. -/
inductive Json where
  | null
  | bool (b : Bool)
  | num (n : Int)
  | str (s : String)
  | arr (items : List Json)
  | obj (fields : List (String × Json))
deriving Repr

/-- `Value::get(key)` on an object (None on non-objects and missing keys). -/
def Json.get (j : Json) (key : String) : Option Json :=
  match j with
  | .obj fields => (fields.find? (fun kv => kv.1 == key)).map (·.2)
  | _ => none

/-! ## matcher.rs -/

inductive PermissionLevel where
  | permit
  | block
  | prompt
deriving DecidableEq, Repr

/-- `PermissionLevel::as_str`. -/
def PermissionLevel.as_str : PermissionLevel → String
  | .permit => "permit"
  | .block => "block"
  | .prompt => "prompt"

structure PermissionRule where
  tool : String
  args : Option String
  level : PermissionLevel
deriving DecidableEq, Repr

/-- Glob matching as used by `globset` for the `*`/`?`/literal fragment
(the only fragment the rules in this system use): `*` matches any sequence,
`?` any single character, anything else itself.  Written with explicit fuel
(any fuel ≥ pattern length + text length suffices) so that it evaluates by
kernel reduction. -/
def globFuel : Nat → List Char → List Char → Bool
  | 0, _, _ => false
  | _ + 1, [], [] => true
  | _ + 1, [], _ :: _ => false
  | fuel + 1, p :: ps, s =>
    if p = '*' then
      globFuel fuel ps s ||
        (match s with
         | [] => false
         | _ :: rest => globFuel fuel (p :: ps) rest)
    else
      match s with
      | [] => false
      | c :: rest => (p = '?' || p = c) && globFuel fuel ps rest

def globMatch (pat text : List Char) : Bool :=
  globFuel (pat.length + text.length + 1) pat text

/-- `RuleMatcher::matches_tool_name`: `*` matches everything, otherwise the
pattern is used as a glob (glob-parse failure falling back to literal
equality is not modelled; every pattern of the `*`/`?`/literal fragment
parses). -/
def matches_tool_name (pat : String) (tool_name : String) : Bool :=
  if pat = "*" then true else globMatch pat.data tool_name.data

/-- `str::split_once(sep)`: split at the first occurrence of `sep`. -/
def splitOnce (sep : Char) : List Char → Option (List Char × List Char)
  | [] => none
  | c :: rest =>
    if c = sep then some ([], rest)
    else (splitOnce sep rest).map (fun p => (c :: p.1, p.2))

/-- `RuleMatcher::matches_args`: the pattern has form `field:glob`, the
tool-input JSON must have `field` as a string value, and the glob must
match it; anything else is a non-match. -/
def matches_args (args_pattern : String) (tool_input : Json) : Bool :=
  match splitOnce ':' args_pattern.data with
  | none => false
  | some (field_name, glob_pattern) =>
    match tool_input.get (String.mk field_name) with
    | some (.str v) => globMatch glob_pattern v.data
    | _ => false

/-- `RuleMatcher::matches`. -/
def RuleMatcher.matches (rule : PermissionRule) (tool_name : String)
    (tool_input : Json) : Bool :=
  matches_tool_name rule.tool tool_name &&
    (match rule.args with
     | none => true
     | some ap => matches_args ap tool_input)

/-- `RuleMatcher::describe_rule`. -/
def describe_rule (rule : PermissionRule) : String :=
  match rule.args with
  | some a => "rule: " ++ rule.tool ++ " [" ++ a ++ "] -> " ++ rule.level.as_str
  | none => "rule: " ++ rule.tool ++ " -> " ++ rule.level.as_str

/-- Winner selection of `RuleMatcher::evaluate` over the already-filtered
matching list: priority block > permit > prompt, first match winning within
a priority; returns the winner's level and description. -/
def pickWinner : List PermissionRule → Option (PermissionLevel × String)
  | [] => none
  | first :: rest =>
    let winner :=
      match (first :: rest).find? (fun r => r.level == .block) with
      | some r => r
      | none =>
        match (first :: rest).find? (fun r => r.level == .permit) with
        | some r => r
        | none => first
    some (winner.level, describe_rule winner)

/-- `RuleMatcher::evaluate`: collect the matching rules and pick the winner. -/
def RuleMatcher.evaluate (rules : List PermissionRule) (tool_name : String)
    (tool_input : Json) : Option (PermissionLevel × String) :=
  pickWinner (rules.filter (fun r => RuleMatcher.matches r tool_name tool_input))

/-! ## engine.rs -/

inductive PermissionDecision where
  | permit
  | block (reason : String)
  | prompt (tool : String) (description : String)
deriving DecidableEq, Repr

/-- The reason string engine.rs builds for a Block decision. -/
def blockReason (tool_name : String) : String :=
  "Tool \x27" ++ tool_name ++ "\x27 blocked by permission rule"

/-- The description string engine.rs builds for a Prompt decision. -/
def promptDescription (tool_name : String) : String :=
  "Tool \x27" ++ tool_name ++ "\x27 requires permission"

/-- `PermissionEngine`: static rules, the mutable session-rules list, and
the ludicrous flag (hook configs and the prompt handler live outside the
checking path and are modelled where the hook/agent claims need them). -/
structure PermissionEngine where
  rules : List PermissionRule
  session_rules : List PermissionRule
  ludicrous : Bool
deriving Repr

/-- The session-rules clause of `PermissionEngine::check`: true exactly
when the session-rule winner is Permit-level (`if let Some(level) = …
{ if level == Permit { return Permit } }`). -/
def sessionPermitB (session_rules : List PermissionRule) (tool_name : String)
    (tool_input : Json) : Bool :=
  match RuleMatcher.evaluate session_rules tool_name tool_input with
  | some (.permit, _) => true
  | _ => false

/-- The static-rules clause and default of `PermissionEngine::check`:
matcher winner mapped to a decision carrying the engine's own reason
strings; default Permit for read-only tools, Prompt otherwise. -/
def staticDecision (rules : List PermissionRule) (tool_name : String)
    (tool_input : Json) (is_read_only : Bool) : PermissionDecision :=
  match RuleMatcher.evaluate rules tool_name tool_input with
  | some (.permit, _) => .permit
  | some (.block, _) => .block (blockReason tool_name)
  | some (.prompt, _) => .prompt tool_name (promptDescription tool_name)
  | none =>
    if is_read_only then .permit
    else .prompt tool_name (promptDescription tool_name)

/-- `PermissionEngine::check`: ludicrous short-circuit; session rules first
(only a Permit-level session winner returns early); then the static rules
and the read-only default. -/
def PermissionEngine.check (e : PermissionEngine) (tool_name : String)
    (tool_input : Json) (is_read_only : Bool) : PermissionDecision :=
  if e.ludicrous then .permit
  else if sessionPermitB e.session_rules tool_name tool_input then .permit
  else staticDecision e.rules tool_name tool_input is_read_only

/-- `PermissionEngine::add_session_rule`: push onto the session list. -/
def PermissionEngine.add_session_rule (e : PermissionEngine)
    (rule : PermissionRule) : PermissionEngine :=
  { e with session_rules := e.session_rules ++ [rule] }

/-! ### evaluate characterization lemmas -/

theorem evaluate_eq_none_iff (rules : List PermissionRule) (name : String) (input : Json) :
    RuleMatcher.evaluate rules name input = none ↔
      rules.filter (fun r => RuleMatcher.matches r name input) = [] := by
  unfold RuleMatcher.evaluate
  cases h : rules.filter (fun r => RuleMatcher.matches r name input) with
  | nil => simp [pickWinner]
  | cons a l => simp [pickWinner]

theorem evaluate_block_of_mem {rules : List PermissionRule} {name : String} {input : Json}
    {r : PermissionRule} (hmem : r ∈ rules) (hm : RuleMatcher.matches r name input = true)
    (hlvl : r.level = .block) :
    ∃ d, RuleMatcher.evaluate rules name input = some (.block, d) := by
  have hrf : r ∈ rules.filter (fun r => RuleMatcher.matches r name input) :=
    List.mem_filter.mpr ⟨hmem, hm⟩
  unfold RuleMatcher.evaluate
  cases h : rules.filter (fun r => RuleMatcher.matches r name input) with
  | nil => rw [h] at hrf; simp at hrf
  | cons first rest =>
    rw [h] at hrf
    have hsome : ((first :: rest).find? (fun r => r.level == .block)).isSome :=
      List.find?_isSome.mpr ⟨r, hrf, by simp [hlvl]⟩
    obtain ⟨rb, hrb⟩ := Option.isSome_iff_exists.mp hsome
    have hrbl : rb.level = .block := by
      have := List.find?_some hrb
      simpa using this
    simp only [pickWinner, hrb, hrbl]
    exact ⟨describe_rule rb, rfl⟩

/-- A Permit winner survives appending another permit-level rule to the
list (the appended rule can neither introduce a block winner nor remove the
existing permit winner). -/
theorem evaluate_permit_append {rules : List PermissionRule} {name : String} {input : Json}
    {d : String} {r : PermissionRule}
    (h : RuleMatcher.evaluate rules name input = some (.permit, d))
    (hr : r.level = .permit) :
    ∃ d', RuleMatcher.evaluate (rules ++ [r]) name input = some (.permit, d') := by
  unfold RuleMatcher.evaluate at h ⊢
  rw [List.filter_append]
  cases hf : rules.filter (fun r => RuleMatcher.matches r name input) with
  | nil => rw [hf] at h; simp [pickWinner] at h
  | cons first rest =>
    rw [hf] at h
    set X := [r].filter (fun r => RuleMatcher.matches r name input) with hX
    have hXblock : X.find? (fun r => r.level == .block) = none := by
      apply List.find?_eq_none.mpr
      intro x hx
      have hxr : x = r := by
        have := (List.mem_filter.mp hx).1
        simpa using this
      simp [hxr, hr]
    -- the old winner is permit, so the old block-find is none
    cases hb : (first :: rest).find? (fun r => r.level == .block) with
    | some rb =>
      have hrbl : rb.level = .block := by simpa using List.find?_some hb
      simp only [pickWinner, hb, hrbl] at h
      simp at h
    | none =>
      simp only [pickWinner, hb] at h
      have hbnew : (first :: (rest ++ X)).find? (fun r => r.level == .block) = none := by
        have : first :: (rest ++ X) = (first :: rest) ++ X := by simp
        rw [this, List.find?_append, hb, hXblock]
        rfl
      rw [List.cons_append]
      simp only [pickWinner, hbnew]
      cases hp : (first :: rest).find? (fun r => r.level == .permit) with
      | some rp =>
        have hrpl : rp.level = .permit := by simpa using List.find?_some hp
        have hpnew : (first :: (rest ++ X)).find? (fun r => r.level == .permit) = some rp := by
          have : first :: (rest ++ X) = (first :: rest) ++ X := by simp
          rw [this, List.find?_append, hp]
          rfl
        simp only [hpnew, hrpl]
        exact ⟨describe_rule rp, rfl⟩
      | none =>
        exfalso
        simp only [hp] at h
        have hfirst : first.level = .permit := by
          have := congrArg (fun o => o.map Prod.fst) h
          simpa using this
        have := List.find?_eq_none.mp hp first (by simp)
        simp [hfirst] at this

/-! ## Claim theorems: C4, C9, C10 -/

/-- C4 (counterexample): the claim that, absent `retry_after_ms`, the delay
is `min(initial_delay_ms * backoff_factor^attempt * u, max_delay_ms)` fails
at a concrete input: with initial 1000 ms, backoff 2.0, max 5000 ms,
attempt 5 and jitter sample u = 3/4 (inside [0.75, 1.25]), the code clamps
the exponential term to 5000 *before* multiplying by u and returns 3750,
while the claimed formula gives 5000. -/
theorem calculate_delay_claim_counterexample :
    ((0.75 : ℚ) ≤ 3 / 4 ∧ (3 / 4 : ℚ) ≤ 1.25) ∧
    calculate_delay ⟨5, 1000, 5000, 2⟩ 5 none (3 / 4) = 3750 ∧
    spec_delay ⟨5, 1000, 5000, 2⟩ 5 (3 / 4) = 5000 ∧
    calculate_delay ⟨5, 1000, 5000, 2⟩ 5 none (3 / 4) ≠
      spec_delay ⟨5, 1000, 5000, 2⟩ 5 (3 / 4) := by
  have h1 : calculate_delay ⟨5, 1000, 5000, 2⟩ 5 none (3 / 4) = 3750 := by
    simp only [calculate_delay]
    norm_num [min_def]
    try decide
  have h2 : spec_delay ⟨5, 1000, 5000, 2⟩ 5 (3 / 4) = 5000 := by
    simp only [spec_delay]
    norm_num [min_def]
    try decide
  exact ⟨⟨by norm_num, by norm_num⟩, h1, h2, by rw [h1, h2]; decide⟩

/-- C4 (amended): when the server supplied `retry_after_ms` the delay is
exactly `min(retry_after_ms, max_delay_ms)`; otherwise, for every jitter
sample u, the delay is
`min(⌊min(initial_delay_ms * backoff_factor^attempt, max_delay_ms) * u⌋, max_delay_ms)`
— the exponential term is clamped to the cap *before* the jitter multiply —
and in particular the delay never exceeds `max_delay_ms`. -/
theorem calculate_delay_amended (cfg : RetryConfig) (attempt : Nat) (u : ℚ) :
    (∀ r, calculate_delay cfg attempt (some r) u = min r cfg.max_delay_ms) ∧
    calculate_delay cfg attempt none u = code_backoff_delay cfg attempt u ∧
    (∀ r?, calculate_delay cfg attempt r? u ≤ cfg.max_delay_ms) := by
  refine ⟨fun r => rfl, rfl, fun r? => ?_⟩
  cases r? with
  | none => exact Nat.min_le_right _ _
  | some r => exact Nat.min_le_right _ _

/-- C9: `truncate_str` always returns a slice `s.take k` for some k — a
whole-codepoint prefix, hence valid UTF-8 cut on a char boundary — whose
UTF-8 byte length is within the bound, and it returns `s` itself whenever
`s` fits within the bound. -/
theorem truncate_str_safe (s : List Char) (n : Nat) :
    (∃ k, truncate_str s n = s.take k) ∧
    utf8Len (truncate_str s n) ≤ max n (utf8Len s) ∧
    (utf8Len s ≤ n → truncate_str s n = s) := by
  refine ⟨?_, ?_, ?_⟩
  · by_cases h : utf8Len s ≤ n
    · exact ⟨s.length, by simp [truncate_str, h]⟩
    · obtain ⟨k, hk⟩ := takeBytes_isTake n s
      exact ⟨k, by simp [truncate_str, h, hk]⟩
  · by_cases h : utf8Len s ≤ n
    · simp [truncate_str, h]
    · have := takeBytes_utf8Len_le n s
      simp only [truncate_str, h, if_false]
      exact le_trans this (le_max_left _ _)
  · intro h; simp [truncate_str, h]

/-- Witness for C9 at a concrete input: "café" is 5 UTF-8 bytes and is
returned unchanged under the bound 5. -/
theorem truncate_str_safe_witness :
    utf8Len "café".data ≤ 5 ∧ truncate_str "café".data 5 = "café".data :=
  ⟨by decide, (truncate_str_safe "café".data 5).2.2 (by decide)⟩

/-- C10: when the Retry-After header is absent or its value does not parse
as a (possibly fractional) decimal number of seconds, `parse_retry_after`
yields `none`, a 429 is classified as `RateLimited {retry_after_ms: None}`,
and `calculate_delay` falls back to the jittered-exponential-backoff branch
(clamped form, as the code computes it). -/
theorem retry_after_fallback (header : Option String) (cfg : RetryConfig)
    (attempt : Nat) (u : ℚ) (msg : String)
    (h : header = none ∨ ∃ s, header = some s ∧ parseDecimal s = none) :
    parse_retry_after header = none ∧
    classify_error 429 msg (parse_retry_after header) = .rateLimited none ∧
    calculate_delay cfg attempt (parse_retry_after header) u =
      code_backoff_delay cfg attempt u := by
  have hn : parse_retry_after header = none := by
    rcases h with h | ⟨s, hs, hp⟩
    · simp [parse_retry_after, h]
    · simp [parse_retry_after, hs, hp]
  refine ⟨hn, ?_, ?_⟩
  · rw [hn]; rfl
  · rw [hn]; rfl

/-- Witness for C10: the HTTP-date form of Retry-After does not parse as a
decimal, so the whole fallback conclusion holds for it concretely. -/
theorem retry_after_fallback_witness :
    parseDecimal "Wed, 21 Oct 2015 07:28:00 GMT" = none ∧
    parse_retry_after (some "Wed, 21 Oct 2015 07:28:00 GMT") = none ∧
    classify_error 429 ""
      (parse_retry_after (some "Wed, 21 Oct 2015 07:28:00 GMT")) = .rateLimited none := by
  have h := retry_after_fallback (some "Wed, 21 Oct 2015 07:28:00 GMT")
    RetryConfig.default 0 1 ""
    (Or.inr ⟨"Wed, 21 Oct 2015 07:28:00 GMT", rfl, by decide⟩)
  exact ⟨by decide, h.1, h.2.1⟩

/-! ## Claim theorems: C5, C6 -/

theorem sessionPermitB_true_iff (rules : List PermissionRule) (name : String) (input : Json) :
    sessionPermitB rules name input = true ↔
      ∃ d, RuleMatcher.evaluate rules name input = some (.permit, d) := by
  unfold sessionPermitB
  cases h : RuleMatcher.evaluate rules name input with
  | none => simp
  | some p =>
    obtain ⟨lvl, d⟩ := p
    cases lvl <;> simp

/-- C5 (counterexample): the claim fails at concrete inputs in two ways.
With a single matching block rule `Bash [command:rm *]`, the Block's reason
is the engine's fixed string, not the matcher's description of the winning
rule.  And with a Permit-level *session* rule matching the call, `check`
returns Permit even though a matching static rule has level block — the
session clause runs first. -/
theorem check_block_claim_counterexample :
    (PermissionEngine.check
        ⟨[⟨"Bash", some "command:rm *", .block⟩, ⟨"Bash", none, .permit⟩], [], false⟩
        "Bash" (Json.obj [("command", Json.str "rm -rf /")]) false =
      .block (blockReason "Bash") ∧
    blockReason "Bash" ≠ describe_rule ⟨"Bash", some "command:rm *", .block⟩) ∧
    PermissionEngine.check
        ⟨[⟨"Bash", none, .block⟩], [⟨"Bash", none, .permit⟩], false⟩
        "Bash" (Json.obj []) false = .permit := by
  exact ⟨⟨by decide, by decide⟩, by decide⟩

/-- C5 (amended): with ludicrous off and no Permit-level session-rule
winner for the call, if at least one matching static rule has level block
then `check` returns Block — regardless of permit- or prompt-level matches
among the static rules — and the reason is the engine's fixed string
`Tool '<name>' blocked by permission rule`. -/
theorem check_block_wins (e : PermissionEngine) (name : String) (input : Json) (ro : Bool)
    (hl : e.ludicrous = false)
    (hs : ∀ d, RuleMatcher.evaluate e.session_rules name input ≠ some (.permit, d))
    (hb : ∃ r ∈ e.rules, RuleMatcher.matches r name input = true ∧ r.level = .block) :
    e.check name input ro = .block (blockReason name) := by
  obtain ⟨r, hmem, hm, hlvl⟩ := hb
  obtain ⟨d, hd⟩ := evaluate_block_of_mem hmem hm hlvl
  have hsp : sessionPermitB e.session_rules name input = false := by
    cases h : sessionPermitB e.session_rules name input with
    | false => rfl
    | true =>
      obtain ⟨d', hd'⟩ := (sessionPermitB_true_iff _ _ _).mp h
      exact absurd hd' (hs d')
  unfold PermissionEngine.check
  rw [hl, hsp]
  simp only [Bool.false_eq_true, if_false]
  unfold staticDecision
  rw [hd]

/-- Witness for C5 (amended): a lone static block rule for Bash yields the
Block decision with the engine's fixed reason. -/
theorem check_block_wins_witness :
    PermissionEngine.check ⟨[⟨"Bash", none, .block⟩], [], false⟩
      "Bash" (Json.obj []) false = .block (blockReason "Bash") :=
  check_block_wins ⟨[⟨"Bash", none, .block⟩], [], false⟩ "Bash" (Json.obj []) false
    rfl
    (fun d h => by simp [RuleMatcher.evaluate, pickWinner] at h)
    ⟨⟨"Bash", none, .block⟩, by simp, by decide, rfl⟩

/-- C6 (counterexample): session rules are not restricted to loosening.
Starting from an engine whose only match is a Permit-level session rule for
Bash (so `check` returns Permit), adding a Block-level session rule flips
the session winner to Block — the Permit clause no longer fires — and the
check falls through to the default, returning Prompt.  A session rule
therefore *can* change a previously Permit decision to non-Permit. -/
theorem add_session_rule_claim_counterexample :
    PermissionEngine.check ⟨[], [⟨"Bash", none, .permit⟩], false⟩
      "Bash" (Json.obj []) false = .permit ∧
    (PermissionEngine.add_session_rule ⟨[], [⟨"Bash", none, .permit⟩], false⟩
        ⟨"Bash", none, .block⟩).check "Bash" (Json.obj []) false =
      .prompt "Bash" (promptDescription "Bash") ∧
    (PermissionEngine.add_session_rule ⟨[], [⟨"Bash", none, .permit⟩], false⟩
        ⟨"Bash", none, .block⟩).check "Bash" (Json.obj []) false ≠ .permit := by
  exact ⟨by decide, by decide, by decide⟩

/-- C6 (amended): adding a *Permit-level* session rule is monotone: any
call that `check` permitted before the addition it still permits after.
(Non-Permit session rules do not enjoy this: see the counterexample.) -/
theorem add_session_rule_permit_monotone (e : PermissionEngine) (r : PermissionRule)
    (name : String) (input : Json) (ro : Bool)
    (hr : r.level = .permit)
    (hp : e.check name input ro = .permit) :
    (e.add_session_rule r).check name input ro = .permit := by
  unfold PermissionEngine.add_session_rule
  unfold PermissionEngine.check at hp ⊢
  by_cases hl : e.ludicrous = true
  · simp [hl]
  · rw [Bool.not_eq_true] at hl
    rw [hl] at hp ⊢
    simp only [Bool.false_eq_true, if_false] at hp ⊢
    cases hsp : sessionPermitB e.session_rules name input with
    | true =>
      obtain ⟨d, hd⟩ := (sessionPermitB_true_iff _ _ _).mp hsp
      obtain ⟨d', hd'⟩ := evaluate_permit_append hd hr
      have : sessionPermitB (e.session_rules ++ [r]) name input = true :=
        (sessionPermitB_true_iff _ _ _).mpr ⟨d', hd'⟩
      rw [this]
      simp
    | false =>
      rw [hsp] at hp
      simp only [Bool.false_eq_true, if_false] at hp
      cases hsp' : sessionPermitB (e.session_rules ++ [r]) name input with
      | true => simp
      | false =>
        simp only [Bool.false_eq_true, if_false]
        exact hp

/-- Witness for C6 (amended): a default-permitted read-only call stays
permitted after adding a Permit-level session rule. -/
theorem add_session_rule_permit_monotone_witness :
    (PermissionEngine.add_session_rule ⟨[], [], false⟩ ⟨"Bash", none, .permit⟩).check
      "Read" (Json.obj []) true = .permit :=
  add_session_rule_permit_monotone ⟨[], [], false⟩ ⟨"Bash", none, .permit⟩
    "Read" (Json.obj []) true rfl (by decide)

/-! ## hooks.rs -/

inductive HookEvent where
  | beforeTool
  | afterTool
  | beforeInput
  | onExit
  | onSessionStart
  | onSessionEnd
  | worktreeCreate
  | worktreeRemove
deriving DecidableEq, Repr

structure HookConfig where
  event : HookEvent
  command : String
  timeout_ms : Nat
deriving DecidableEq, Repr

/-- `HookInput` (types.rs).  The worktree fields are omitted: no claim
touches them and agent.rs constructs inputs without them. -/
structure HookInput where
  event : HookEvent
  tool_name : Option String
  tool_input : Option Json
  tool_output : Option String
  is_error : Option Bool

/-- The OS-level outcome of running one hook process, as observed by
`run_single_hook`: normal exit with a code, death by signal
(`status.code() == None`), the tokio timeout elapsing (after which the
process is killed), spawn failure, wait failure, or a serde serialization
failure of the stdin payload. -/
inductive HookOutcome where
  | exited (code : Int)
  | signaled
  | timedOut
  | spawnFailed
  | waitFailed
  | serializeFailed
deriving DecidableEq, Repr

inductive HookResult where
  | approve
  | deny (reason : String)
  | error (msg : String)
deriving DecidableEq, Repr

/-- The deny reason string built by `run_single_hook`. -/
def denyReason (command : String) : String :=
  "Hook \x27" ++ command ++ "\x27 denied the operation"

/-- `run_single_hook` from hooks.rs, as a function of the process outcome:
exit 0 approves, exit 2 denies with the command-derived reason, any other
exit code, signal death, timeout (the process is killed first), spawn/wait
failure or serialization failure is an error. -/
def run_single_hook (hook : HookConfig) (outcome : HookOutcome) : HookResult :=
  match outcome with
  | .serializeFailed => .error "Failed to serialize hook input"
  | .spawnFailed => .error "Failed to spawn hook"
  | .waitFailed => .error "Failed to wait for hook"
  | .signaled => .error "Hook terminated by signal"
  | .timedOut =>
    .error ("Hook \x27" ++ hook.command ++ "\x27 timed out after " ++
      toString hook.timeout_ms ++ "ms")
  | .exited c =>
    if c = 0 then .approve
    else if c = 2 then .deny (denyReason hook.command)
    else .error ("Hook exited with code " ++ toString c)

/-- The sequential loop of `run_hooks` over the already-filtered matching
hooks.  `outs k` is the process outcome of the k-th matching hook (were it
launched).  Returns the result together with how many hooks were actually
launched: an error result logs (tracing::warn) and continues, a deny stops
immediately. -/
def runMatching (outs : Nat → HookOutcome) : List HookConfig → Except String Unit × Nat
  | [] => (.ok (), 0)
  | h :: rest =>
    match run_single_hook h (outs 0) with
    | .deny reason => (.error reason, 1)
    | _ =>
      let r := runMatching (fun k => outs (k + 1)) rest
      (r.1, r.2 + 1)

/-- `run_hooks` from hooks.rs: filter the configured hooks by event, then
run them sequentially with first-deny-wins. -/
def run_hooks (outs : Nat → HookOutcome) (hooks : List HookConfig) (event : HookEvent)
    (_hook_input : HookInput) : Except String Unit × Nat :=
  runMatching outs (hooks.filter (fun h => h.event == event))

/-- Position (and config) of the first matching hook whose process exits
with code 2, if any. -/
def firstDeny (outs : Nat → HookOutcome) : List HookConfig → Option (Nat × HookConfig)
  | [] => none
  | h :: rest =>
    if outs 0 = .exited 2 then some (0, h)
    else (firstDeny (fun k => outs (k + 1)) rest).map (fun p => (p.1 + 1, p.2))

theorem firstDeny_cons_eq (outs : Nat → HookOutcome) (a : HookConfig)
    (rest : List HookConfig) {j : Nat} {h : HookConfig}
    (hfd : firstDeny outs (a :: rest) = some (j, h)) :
    (outs 0 = .exited 2 ∧ j = 0 ∧ h = a) ∨
    (outs 0 ≠ .exited 2 ∧ ∃ p, firstDeny (fun k => outs (k + 1)) rest = some p ∧
      j = p.1 + 1 ∧ h = p.2) := by
  by_cases h0 : outs 0 = .exited 2
  · rw [show firstDeny outs (a :: rest) =
        (if outs 0 = .exited 2 then some (0, a)
         else (firstDeny (fun k => outs (k + 1)) rest).map (fun p => (p.1 + 1, p.2)))
      from rfl, if_pos h0] at hfd
    have := Option.some.inj hfd
    rw [Prod.mk.injEq] at this
    exact Or.inl ⟨h0, this.1.symm, this.2.symm⟩
  · rw [show firstDeny outs (a :: rest) =
        (if outs 0 = .exited 2 then some (0, a)
         else (firstDeny (fun k => outs (k + 1)) rest).map (fun p => (p.1 + 1, p.2)))
      from rfl, if_neg h0] at hfd
    cases hrec : firstDeny (fun k => outs (k + 1)) rest with
    | none => rw [hrec] at hfd; simp at hfd
    | some p =>
      rw [hrec] at hfd
      simp only [Option.map_some'] at hfd
      have := Option.some.inj hfd
      rw [Prod.mk.injEq] at this
      exact Or.inr ⟨h0, p, rfl, this.1.symm, this.2.symm⟩

theorem firstDeny_some_exited (l : List HookConfig) :
    ∀ (outs : Nat → HookOutcome) (j : Nat) (h : HookConfig),
      firstDeny outs l = some (j, h) → outs j = .exited 2 := by
  induction l with
  | nil => intro outs j h hfd; simp [firstDeny] at hfd
  | cons a rest ih =>
    intro outs j h hfd
    rcases firstDeny_cons_eq outs a rest hfd with ⟨h0, hj, _⟩ | ⟨_, p, hrec, hj, _⟩
    · rw [hj]; exact h0
    · rw [hj]; exact ih (fun k => outs (k + 1)) p.1 p.2 (by rw [hrec])

theorem firstDeny_none_no_exit2 (l : List HookConfig) :
    ∀ (outs : Nat → HookOutcome), firstDeny outs l = none →
      ∀ k < l.length, outs k ≠ .exited 2 := by
  induction l with
  | nil => intro outs _ k hk; simp at hk
  | cons a rest ih =>
    intro outs hfd k hk
    by_cases h0 : outs 0 = .exited 2
    · rw [show firstDeny outs (a :: rest) =
          (if outs 0 = .exited 2 then some (0, a)
           else (firstDeny (fun k => outs (k + 1)) rest).map (fun p => (p.1 + 1, p.2)))
        from rfl, if_pos h0] at hfd
      simp at hfd
    · rw [show firstDeny outs (a :: rest) =
          (if outs 0 = .exited 2 then some (0, a)
           else (firstDeny (fun k => outs (k + 1)) rest).map (fun p => (p.1 + 1, p.2)))
        from rfl, if_neg h0, Option.map_eq_none'] at hfd
      cases k with
      | zero => exact h0
      | succ k' =>
        have := ih (fun k => outs (k + 1)) hfd k' (by simpa using hk)
        simpa using this

/-- If the outcome is not exit-code-2, `run_single_hook` never denies. -/
theorem run_single_hook_deny_iff (hook : HookConfig) (o : HookOutcome) (r : String) :
    run_single_hook hook o = .deny r ↔ o = .exited 2 ∧ r = denyReason hook.command := by
  cases o with
  | exited c =>
    by_cases h0 : c = 0
    · simp [run_single_hook, h0]
    · by_cases h2 : c = 2
      · simp [run_single_hook, h0, h2, eq_comm]
      · simp [run_single_hook, h0, h2]
  | signaled => simp [run_single_hook]
  | timedOut => simp [run_single_hook]
  | spawnFailed => simp [run_single_hook]
  | waitFailed => simp [run_single_hook]
  | serializeFailed => simp [run_single_hook]

theorem runMatching_spec (l : List HookConfig) :
    ∀ (outs : Nat → HookOutcome),
      (∀ j h, firstDeny outs l = some (j, h) →
        runMatching outs l = (.error (denyReason h.command), j + 1)) ∧
      (firstDeny outs l = none → runMatching outs l = (.ok (), l.length)) := by
  induction l with
  | nil =>
    intro outs
    exact ⟨fun j h hfd => by simp [firstDeny] at hfd, fun _ => rfl⟩
  | cons a rest ih =>
    intro outs
    have hunfold : runMatching outs (a :: rest) =
        (match run_single_hook a (outs 0) with
         | .deny reason => (.error reason, 1)
         | _ =>
           ((runMatching (fun k => outs (k + 1)) rest).1,
             (runMatching (fun k => outs (k + 1)) rest).2 + 1)) := rfl
    by_cases h0 : outs 0 = .exited 2
    · have hd : run_single_hook a (outs 0) = .deny (denyReason a.command) :=
        (run_single_hook_deny_iff a (outs 0) _).mpr ⟨h0, rfl⟩
      constructor
      · intro j h hfd
        rcases firstDeny_cons_eq outs a rest hfd with ⟨_, hj, hh⟩ | ⟨h0', _⟩
        · rw [hunfold, hd, hj, hh]
        · exact absurd h0 h0'
      · intro hfd
        rw [show firstDeny outs (a :: rest) =
            (if outs 0 = .exited 2 then some (0, a)
             else (firstDeny (fun k => outs (k + 1)) rest).map (fun p => (p.1 + 1, p.2)))
          from rfl, if_pos h0] at hfd
        simp at hfd
    · have hnd : ∀ r, run_single_hook a (outs 0) ≠ .deny r := by
        intro r hr
        exact h0 ((run_single_hook_deny_iff a (outs 0) r).mp hr).1
      have hstep : runMatching outs (a :: rest) =
          ((runMatching (fun k => outs (k + 1)) rest).1,
            (runMatching (fun k => outs (k + 1)) rest).2 + 1) := by
        rw [hunfold]
        cases hres : run_single_hook a (outs 0) with
        | approve => rfl
        | error m => rfl
        | deny r => exact absurd hres (hnd r)
      constructor
      · intro j h hfd
        rcases firstDeny_cons_eq outs a rest hfd with ⟨h0', _⟩ | ⟨_, p, hrec, hj, hh⟩
        · exact absurd h0' h0
        · have := (ih (fun k => outs (k + 1))).1 p.1 p.2 (by rw [hrec])
          rw [hstep, this, hj, hh]
      · intro hfd
        rw [show firstDeny outs (a :: rest) =
            (if outs 0 = .exited 2 then some (0, a)
             else (firstDeny (fun k => outs (k + 1)) rest).map (fun p => (p.1 + 1, p.2)))
          from rfl, if_neg h0, Option.map_eq_none'] at hfd
        have := (ih (fun k => outs (k + 1))).2 hfd
        rw [hstep, this]
        simp

/-- C8: over the hooks whose event matches, run sequentially in
configuration order; the run returns an error exactly when some matching
hook's process exits with code 2, the error carries the deny reason built
from the first such hook, and exactly the hooks up to and including the
first denier were launched (first-deny-wins).  When no matching hook exits
with code 2 — timeouts (killed), other exit codes, signal deaths, spawn or
wait failures are all errors that are logged and skipped — every matching
hook is launched and the result is Ok. -/
theorem run_hooks_first_deny_wins (hooks : List HookConfig) (event : HookEvent)
    (input : HookInput) (outs : Nat → HookOutcome) :
    (∀ j h, firstDeny outs (hooks.filter (fun h => h.event == event)) = some (j, h) →
      outs j = .exited 2 ∧
      run_hooks outs hooks event input = (.error (denyReason h.command), j + 1)) ∧
    (firstDeny outs (hooks.filter (fun h => h.event == event)) = none →
      (∀ k < (hooks.filter (fun h => h.event == event)).length, outs k ≠ .exited 2) ∧
      run_hooks outs hooks event input =
        (.ok (), (hooks.filter (fun h => h.event == event)).length)) := by
  constructor
  · intro j h hfd
    exact ⟨firstDeny_some_exited _ outs j h hfd,
      (runMatching_spec _ outs).1 j h hfd⟩
  · intro hfd
    exact ⟨firstDeny_none_no_exit2 _ outs hfd,
      (runMatching_spec _ outs).2 hfd⟩

/-- Witness for C8: three hooks on the matching event — the first approves
(exit 0), the second denies (exit 2), the third would approve — give the
deny reason of the second and launch exactly two hooks. -/
theorem run_hooks_first_deny_wins_witness :
    run_hooks (fun k => if k = 1 then .exited 2 else .exited 0)
      [⟨.beforeTool, "exit 0", 5000⟩, ⟨.beforeTool, "exit 2", 5000⟩,
        ⟨.beforeTool, "exit 0", 5000⟩] .beforeTool
      ⟨.beforeTool, some "Bash", none, none, none⟩ =
      (.error (denyReason "exit 2"), 2) :=
  ((run_hooks_first_deny_wins
      [⟨.beforeTool, "exit 0", 5000⟩, ⟨.beforeTool, "exit 2", 5000⟩,
        ⟨.beforeTool, "exit 0", 5000⟩] .beforeTool
      ⟨.beforeTool, some "Bash", none, none, none⟩
      (fun k => if k = 1 then .exited 2 else .exited 0)).1 1
      ⟨.beforeTool, "exit 2", 5000⟩ (by decide)).2

/-! ## message.rs: Message / ContentBlock and their serde JSON -/

inductive Role where
  | user
  | assistant
deriving DecidableEq, Repr

inductive ImageSourceType where
  | base64
  | url
deriving DecidableEq, Repr

structure ImageSource where
  source_type : ImageSourceType
  media_type : String
  data : String

inductive ToolResultContent where
  | text (text : String)
  | image (source : ImageSource)

/-- `ContentBlock` from message.rs: an internally-tagged serde enum with
exactly five variants and no catch-all. -/
inductive ContentBlock where
  | text (text : String)
  | toolUse (id : String) (name : String) (input : Json)
  | toolResult (tool_use_id : String) (content : List ToolResultContent)
      (is_error : Option Bool)
  | thinking (thinking : String) (signature : Option String)
  | image (source : ImageSource)

structure Message where
  role : Role
  content : List ContentBlock

/-! ### serde serialization (tag = "type", snake_case; optional fields
skipped when none) -/

def serImageSourceType : ImageSourceType → Json
  | .base64 => .str "base64"
  | .url => .str "url"

def serImageSource (s : ImageSource) : Json :=
  .obj [("type", serImageSourceType s.source_type),
    ("media_type", .str s.media_type), ("data", .str s.data)]

def serToolResultContent : ToolResultContent → Json
  | .text t => .obj [("type", .str "text"), ("text", .str t)]
  | .image src => .obj [("type", .str "image"), ("source", serImageSource src)]

def serContentBlock : ContentBlock → Json
  | .text t => .obj [("type", .str "text"), ("text", .str t)]
  | .toolUse id name input =>
    .obj [("type", .str "tool_use"), ("id", .str id), ("name", .str name),
      ("input", input)]
  | .toolResult tid content is_error =>
    .obj ([("type", .str "tool_result"), ("tool_use_id", .str tid),
      ("content", .arr (content.map serToolResultContent))] ++
      (match is_error with
       | none => []
       | some b => [("is_error", .bool b)]))
  | .thinking th sig =>
    .obj ([("type", .str "thinking"), ("thinking", .str th)] ++
      (match sig with
       | none => []
       | some s => [("signature", .str s)]))
  | .image src => .obj [("type", .str "image"), ("source", serImageSource src)]

def serRole : Role → Json
  | .user => .str "user"
  | .assistant => .str "assistant"

def serMessage (m : Message) : Json :=
  .obj [("role", serRole m.role), ("content", .arr (m.content.map serContentBlock))]

/-! ### serde deserialization (field lookups are order-insensitive, as
serde's are; an unknown `type` tag is a hard deserialization error) -/

def getStr (j : Json) (key : String) : Option String :=
  match j.get key with
  | some (.str s) => some s
  | _ => none

/-- Lookup of an `Option<String>` field: missing is fine (None), a
present non-string is an error. -/
def getOptStr (j : Json) (key : String) : Option (Option String) :=
  match j.get key with
  | none => some none
  | some (.str s) => some (some s)
  | some _ => none

/-- Lookup of an `Option<bool>` field. -/
def getOptBool (j : Json) (key : String) : Option (Option Bool) :=
  match j.get key with
  | none => some none
  | some (.bool b) => some (some b)
  | some _ => none

def deserImageSourceType : Json → Option ImageSourceType
  | .str "base64" => some .base64
  | .str "url" => some .url
  | _ => none

def deserImageSource (j : Json) : Option ImageSource :=
  match j.get "type", getStr j "media_type", getStr j "data" with
  | some t, some mt, some d => (deserImageSourceType t).map (fun st => ⟨st, mt, d⟩)
  | _, _, _ => none

def deserToolResultContent (j : Json) : Option ToolResultContent :=
  match getStr j "type" with
  | some "text" => (getStr j "text").map .text
  | some "image" =>
    match j.get "source" with
    | some src => (deserImageSource src).map .image
    | none => none
  | _ => none

def deserTRCList : List Json → Option (List ToolResultContent)
  | [] => some []
  | x :: xs =>
    match deserToolResultContent x, deserTRCList xs with
    | some a, some l => some (a :: l)
    | _, _ => none

def deserContentBlock (j : Json) : Option ContentBlock :=
  match getStr j "type" with
  | some "text" => (getStr j "text").map .text
  | some "tool_use" =>
    match getStr j "id", getStr j "name", j.get "input" with
    | some id, some name, some input => some (.toolUse id name input)
    | _, _, _ => none
  | some "tool_result" =>
    match getStr j "tool_use_id", j.get "content", getOptBool j "is_error" with
    | some tid, some (.arr items), some is_error =>
      (deserTRCList items).map (fun content => .toolResult tid content is_error)
    | _, _, _ => none
  | some "thinking" =>
    match getStr j "thinking", getOptStr j "signature" with
    | some th, some sig => some (.thinking th sig)
    | _, _ => none
  | some "image" =>
    match j.get "source" with
    | some src => (deserImageSource src).map .image
    | none => none
  | _ => none

def deserBlockList : List Json → Option (List ContentBlock)
  | [] => some []
  | x :: xs =>
    match deserContentBlock x, deserBlockList xs with
    | some a, some l => some (a :: l)
    | _, _ => none

def deserRole : Json → Option Role
  | .str "user" => some .user
  | .str "assistant" => some .assistant
  | _ => none

def deserMessage (j : Json) : Option Message :=
  match j.get "role", j.get "content" with
  | some r, some (.arr items) =>
    match deserRole r with
    | some role => (deserBlockList items).map (fun content => ⟨role, content⟩)
    | none => none
  | _, _ => none

/-! ### round-trip lemmas -/

theorem deserImageSource_ser (s : ImageSource) :
    deserImageSource (serImageSource s) = some s := by
  obtain ⟨st, mt, d⟩ := s
  cases st <;> rfl

theorem deserToolResultContent_ser (c : ToolResultContent) :
    deserToolResultContent (serToolResultContent c) = some c := by
  cases c with
  | text t => rfl
  | image src =>
    show (deserImageSource (serImageSource src)).map ToolResultContent.image = _
    rw [deserImageSource_ser]
    rfl

theorem deserTRCList_ser (l : List ToolResultContent) :
    deserTRCList (l.map serToolResultContent) = some l := by
  induction l with
  | nil => rfl
  | cons a rest ih =>
    show deserTRCList (serToolResultContent a :: rest.map serToolResultContent) = _
    unfold deserTRCList
    rw [deserToolResultContent_ser, ih]

theorem deserContentBlock_ser (b : ContentBlock) :
    deserContentBlock (serContentBlock b) = some b := by
  cases b with
  | text t => rfl
  | toolUse id name input => rfl
  | toolResult tid content is_error =>
    cases is_error with
    | none =>
      show (deserTRCList (content.map serToolResultContent)).map
          (fun c => ContentBlock.toolResult tid c none) = _
      rw [deserTRCList_ser]
      rfl
    | some bb =>
      show (deserTRCList (content.map serToolResultContent)).map
          (fun c => ContentBlock.toolResult tid c (some bb)) = _
      rw [deserTRCList_ser]
      rfl
  | thinking th sig => cases sig <;> rfl
  | image src =>
    show (deserImageSource (serImageSource src)).map ContentBlock.image = _
    rw [deserImageSource_ser]
    rfl

theorem deserBlockList_ser (l : List ContentBlock) :
    deserBlockList (l.map serContentBlock) = some l := by
  induction l with
  | nil => rfl
  | cons a rest ih =>
    show deserBlockList (serContentBlock a :: rest.map serContentBlock) = _
    unfold deserBlockList
    rw [deserContentBlock_ser, ih]

/-- C7 (amended): every `Message` built from the five known content-block
variants — known fields, optional fields present or absent — serialises to
JSON and re-parses to an equal `Message`; `ToolUse.input` payloads being
arbitrary JSON round-trip unchanged. -/
theorem message_roundtrip (m : Message) : deserMessage (serMessage m) = some m := by
  obtain ⟨role, content⟩ := m
  cases role with
  | user =>
    show (deserBlockList (content.map serContentBlock)).map
        (fun c => Message.mk .user c) = _
    rw [deserBlockList_ser]
    rfl
  | assistant =>
    show (deserBlockList (content.map serContentBlock)).map
        (fun c => Message.mk .assistant c) = _
    rw [deserBlockList_ser]
    rfl

/-- C7 (counterexample): a content block whose `type` tag is unknown to
the core (here `server_tool_use`) is not preserved: deserializing it fails,
and a message containing it fails to parse as a whole — it is rejected, not
round-tripped. -/
theorem unknown_block_rejected :
    deserContentBlock (Json.obj [("type", Json.str "server_tool_use"),
      ("id", Json.str "srvtoolu_1")]) = none ∧
    deserMessage (Json.obj [("role", Json.str "assistant"),
      ("content", Json.arr [Json.obj [("type", Json.str "server_tool_use"),
        ("id", Json.str "srvtoolu_1")]])]) = none :=
  ⟨rfl, rfl⟩

/-! ## sse.rs: the SSE line parser

Text is modelled as `List Char`.  `SseParser::feed` pushes the chunk onto
the retained buffer, then repeatedly splits off the content before the
first `"\n\n"` and parses each such block; the remainder (with no
`"\n\n"`) stays in the buffer. -/

/-- An SSE event (`SseEvent` in sse.rs), over codepoint lists. -/
structure SseEvent where
  event_type : Option (List Char)
  data : List Char
deriving DecidableEq, Repr

/-- Index of the first occurrence of `"\n\n"`, if any. -/
def findNLNL : List Char → Option Nat
  | c1 :: c2 :: rest =>
    if c1 = '\n' ∧ c2 = '\n' then some 0
    else (findNLNL (c2 :: rest)).map (· + 1)
  | _ => none

/-- The `while let Some(pos) = self.buffer.find("\n\n")` loop of `feed`,
fuel-structured (any fuel ≥ buffer length suffices): returns the blocks in
order and the final buffer. -/
def splitLoop : Nat → List Char → List (List Char) × List Char
  | 0, buf => ([], buf)
  | fuel + 1, buf =>
    match findNLNL buf with
    | none => ([], buf)
    | some p =>
      let r := splitLoop fuel (buf.drop (p + 2))
      (buf.take p :: r.1, r.2)

def splitEvents (buf : List Char) : List (List Char) × List Char :=
  splitLoop buf.length buf

/-- `str::lines` over a block.  Blocks produced by splitting at the first
`"\n\n"` never end in `'\n'`, for which `splitOn '\n'` agrees with Rust's
`lines()` (the `\r`-stripping of `lines()` is not modelled; no claim uses
carriage returns).  On the empty block the single empty line it produces is
skipped by the field logic exactly as the empty iterator would be. -/
def blockLines (block : List Char) : List (List Char) :=
  block.splitOn '\n'

/-- Processing of one line of `parse_block`: comment lines are skipped;
`field:value` lines strip one leading space from the value and update
`event` (last wins) or append to the data lines; a bare `data` line appends
an empty data line; anything else is ignored. -/
def parseLine (acc : Option (List Char) × List (List Char)) (line : List Char) :
    Option (List Char) × List (List Char) :=
  match line with
  | ':' :: _ => acc
  | _ =>
    match splitOnce ':' line with
    | some (field, v) =>
      let value := match v with
        | ' ' :: rest => rest
        | other => other
      if field = "event".data then (some value, acc.2)
      else if field = "data".data then (acc.1, acc.2 ++ [value])
      else acc
    | none =>
      if line = "data".data then (acc.1, acc.2 ++ [[]]) else acc

/-- Join data lines with `"\n"`. -/
def joinNL : List (List Char) → List Char
  | [] => []
  | [x] => x
  | x :: xs => x ++ '\n' :: joinNL xs

/-- `SseParser::parse_block`: fold the lines, discard the record when no
`data` field was seen. -/
def parse_block (block : List Char) : Option SseEvent :=
  let r := (blockLines block).foldl parseLine (none, [])
  match r.2 with
  | [] => none
  | dataLines => some ⟨r.1, joinNL dataLines⟩

/-- `SseParser::feed`: push the chunk, split off complete blocks, parse
each; the state is the retained buffer. -/
def SseParser.feed (buf : List Char) (chunk : List Char) :
    List SseEvent × List Char :=
  let r := splitEvents (buf ++ chunk)
  (r.1.filterMap parse_block, r.2)

/-- Feeding a list of chunks in sequence, collecting all decoded events
and the final buffer. -/
def feedAll : List Char → List (List Char) → List SseEvent × List Char
  | buf, [] => ([], buf)
  | buf, c :: cs =>
    let r1 := SseParser.feed buf c
    let r2 := feedAll r1.2 cs
    (r1.1 ++ r2.1, r2.2)

/-! ### Split-invariance of the character-level parser -/

theorem findNLNL_some_bound :
    ∀ (a : List Char) (p : Nat), findNLNL a = some p → p + 2 ≤ a.length := by
  intro a
  induction a with
  | nil => intro p h; simp [findNLNL] at h
  | cons c1 tail ih =>
    intro p h
    cases tail with
    | nil => simp [findNLNL] at h
    | cons c2 rest =>
      by_cases hc : c1 = '\n' ∧ c2 = '\n'
      · rw [show findNLNL (c1 :: c2 :: rest) =
            (if c1 = '\n' ∧ c2 = '\n' then some 0
             else (findNLNL (c2 :: rest)).map (· + 1)) from rfl, if_pos hc] at h
        have := Option.some.inj h
        simp [← this]
      · rw [show findNLNL (c1 :: c2 :: rest) =
            (if c1 = '\n' ∧ c2 = '\n' then some 0
             else (findNLNL (c2 :: rest)).map (· + 1)) from rfl, if_neg hc] at h
        cases hr : findNLNL (c2 :: rest) with
        | none => rw [hr] at h; simp at h
        | some q =>
          rw [hr] at h
          simp only [Option.map_some'] at h
          have hq := ih q (by rw [hr])
          have heq := Option.some.inj h
          simp only [List.length_cons] at hq ⊢
          omega

theorem findNLNL_append_some :
    ∀ (a b : List Char) (p : Nat), findNLNL a = some p → findNLNL (a ++ b) = some p := by
  intro a
  induction a with
  | nil => intro b p h; simp [findNLNL] at h
  | cons c1 tail ih =>
    intro b p h
    cases tail with
    | nil => simp [findNLNL] at h
    | cons c2 rest =>
      by_cases hc : c1 = '\n' ∧ c2 = '\n'
      · rw [show findNLNL (c1 :: c2 :: rest) =
            (if c1 = '\n' ∧ c2 = '\n' then some 0
             else (findNLNL (c2 :: rest)).map (· + 1)) from rfl, if_pos hc] at h
        rw [show (c1 :: c2 :: rest) ++ b = c1 :: c2 :: (rest ++ b) from rfl]
        rw [show findNLNL (c1 :: c2 :: (rest ++ b)) =
            (if c1 = '\n' ∧ c2 = '\n' then some 0
             else (findNLNL (c2 :: (rest ++ b))).map (· + 1)) from rfl, if_pos hc]
        exact h
      · rw [show findNLNL (c1 :: c2 :: rest) =
            (if c1 = '\n' ∧ c2 = '\n' then some 0
             else (findNLNL (c2 :: rest)).map (· + 1)) from rfl, if_neg hc] at h
        cases hr : findNLNL (c2 :: rest) with
        | none => rw [hr] at h; simp at h
        | some q =>
          rw [hr] at h
          rw [show (c1 :: c2 :: rest) ++ b = c1 :: c2 :: (rest ++ b) from rfl]
          rw [show findNLNL (c1 :: c2 :: (rest ++ b)) =
              (if c1 = '\n' ∧ c2 = '\n' then some 0
               else (findNLNL (c2 :: (rest ++ b))).map (· + 1)) from rfl, if_neg hc]
          have := ih b q (by rw [hr])
          rw [show (c2 :: rest) ++ b = c2 :: (rest ++ b) from rfl] at this
          rw [this]
          exact h

theorem splitLoop_succ_none (fuel : Nat) (buf : List Char) (h : findNLNL buf = none) :
    splitLoop (fuel + 1) buf = ([], buf) := by
  show (match findNLNL buf with
    | none => ([], buf)
    | some p =>
      let r := splitLoop fuel (buf.drop (p + 2))
      (buf.take p :: r.1, r.2)) = ([], buf)
  rw [h]

theorem splitLoop_succ_some (fuel : Nat) (buf : List Char) (p : Nat)
    (h : findNLNL buf = some p) :
    splitLoop (fuel + 1) buf =
      (buf.take p :: (splitLoop fuel (buf.drop (p + 2))).1,
        (splitLoop fuel (buf.drop (p + 2))).2) := by
  show (match findNLNL buf with
    | none => ([], buf)
    | some p =>
      let r := splitLoop fuel (buf.drop (p + 2))
      (buf.take p :: r.1, r.2)) = _
  rw [h]

theorem splitLoop_fuel :
    ∀ (f1 : Nat) (f2 : Nat) (buf : List Char), buf.length ≤ f1 → buf.length ≤ f2 →
      splitLoop f1 buf = splitLoop f2 buf := by
  intro f1
  induction f1 with
  | zero =>
    intro f2 buf h1 _
    have : buf = [] := List.length_eq_zero.mp (Nat.le_zero.mp h1)
    subst this
    cases f2 with
    | zero => rfl
    | succ n => exact (splitLoop_succ_none n [] rfl).symm
  | succ f1' ih =>
    intro f2 buf h1 h2
    cases f2 with
    | zero =>
      have : buf = [] := List.length_eq_zero.mp (Nat.le_zero.mp h2)
      subst this
      exact splitLoop_succ_none f1' [] rfl
    | succ f2' =>
      cases hf : findNLNL buf with
      | none => rw [splitLoop_succ_none f1' buf hf, splitLoop_succ_none f2' buf hf]
      | some p =>
        have hb := findNLNL_some_bound buf p hf
        have hd : (buf.drop (p + 2)).length ≤ f1' := by
          simp only [List.length_drop]; omega
        have hd2 : (buf.drop (p + 2)).length ≤ f2' := by
          simp only [List.length_drop]; omega
        rw [splitLoop_succ_some f1' buf p hf, splitLoop_succ_some f2' buf p hf,
          ih f2' (buf.drop (p + 2)) hd hd2]

theorem splitEvents_of_none {buf : List Char} (h : findNLNL buf = none) :
    splitEvents buf = ([], buf) := by
  unfold splitEvents
  cases hl : buf.length with
  | zero => rfl
  | succ n => rw [splitLoop_succ_none n buf h]

theorem splitEvents_of_some {buf : List Char} {p : Nat} (h : findNLNL buf = some p) :
    splitEvents buf =
      (buf.take p :: (splitEvents (buf.drop (p + 2))).1,
        (splitEvents (buf.drop (p + 2))).2) := by
  have hb := findNLNL_some_bound buf p h
  unfold splitEvents
  cases hl : buf.length with
  | zero => omega
  | succ n =>
    rw [splitLoop_succ_some n buf p h,
      splitLoop_fuel n (buf.drop (p + 2)).length (buf.drop (p + 2))
        (by simp only [List.length_drop]; omega) (le_refl _)]

theorem splitEvents_append :
    ∀ (n : Nat) (a b : List Char), a.length ≤ n →
      splitEvents (a ++ b) =
        ((splitEvents a).1 ++ (splitEvents ((splitEvents a).2 ++ b)).1,
          (splitEvents ((splitEvents a).2 ++ b)).2) := by
  intro n
  induction n with
  | zero =>
    intro a b h
    have : a = [] := List.length_eq_zero.mp (Nat.le_zero.mp h)
    subst this
    simp [splitEvents_of_none (show findNLNL [] = none from rfl)]
  | succ n' ih =>
    intro a b h
    cases hf : findNLNL a with
    | none =>
      rw [splitEvents_of_none hf]
      simp
    | some p =>
      have hb := findNLNL_some_bound a p hf
      have hfab := findNLNL_append_some a b p hf
      rw [splitEvents_of_some hf, splitEvents_of_some hfab]
      have htake : (a ++ b).take p = a.take p :=
        List.take_append_of_le_length (by omega)
      have hdrop : (a ++ b).drop (p + 2) = a.drop (p + 2) ++ b :=
        List.drop_append_of_le_length (by omega)
      rw [htake, hdrop]
      have hlen : (a.drop (p + 2)).length ≤ n' := by
        simp only [List.length_drop]; omega
      rw [ih (a.drop (p + 2)) b hlen]
      simp

theorem feedAll_cons_flatten :
    ∀ (cs : List (List Char)) (c : List Char) (buf : List Char),
      feedAll buf (c :: cs) = SseParser.feed buf (c ++ cs.flatten) := by
  intro cs
  induction cs with
  | nil =>
    intro c buf
    show (let r1 := SseParser.feed buf c
      let r2 := feedAll r1.2 []
      (r1.1 ++ r2.1, r2.2)) = _
    simp only [feedAll, List.flatten_nil, List.append_nil]
  | cons c' cs' ih =>
    intro c buf
    show (let r1 := SseParser.feed buf c
      let r2 := feedAll r1.2 (c' :: cs')
      (r1.1 ++ r2.1, r2.2)) = _
    simp only [ih]
    unfold SseParser.feed
    have hsplit := splitEvents_append (buf ++ c).length (buf ++ c)
      (c' ++ cs'.flatten) (le_refl _)
    simp only [List.flatten_cons]
    rw [show buf ++ (c ++ (c' ++ cs'.flatten)) = (buf ++ c) ++ (c' ++ cs'.flatten) by
      simp [List.append_assoc]]
    rw [hsplit]
    simp [List.filterMap_append]

/-- Character-level split-invariance of `SseParser::feed`: feeding any
sequence of text chunks from a fresh parser yields exactly the events and
final buffer of feeding their concatenation in one call (incomplete
trailing records are retained across feeds). -/
theorem sse_feed_split_invariance (chunks : List (List Char)) :
    feedAll [] chunks = SseParser.feed [] chunks.flatten := by
  cases chunks with
  | nil => rfl
  | cons c cs => exact feedAll_cons_flatten cs c []

/-! ## stream.rs: the per-chunk byte decode of `MessageStream::poll_next`

`poll_next` converts each incoming byte chunk with
`String::from_utf8_lossy(&bytes)` *independently* and feeds the resulting
text to the SSE parser.  We model `from_utf8_lossy` (WHATWG/Unicode
"substitution of maximal subparts": every maximal invalid or incomplete
subsequence becomes one U+FFFD per subpart) over byte lists. -/

/-- The U+FFFD replacement character. -/
def replChar : Char := Char.ofNat 0xFFFD

/-- Continuation byte test (0b10xxxxxx). -/
def isCont (b : Nat) : Bool := 0x80 ≤ b && b < 0xC0

/-- Valid second byte of a 3-byte sequence (E0 forbids overlongs, ED
forbids surrogates). -/
def cont3ok (b0 b1 : Nat) : Bool :=
  if b0 = 0xE0 then 0xA0 ≤ b1 && b1 ≤ 0xBF
  else if b0 = 0xED then 0x80 ≤ b1 && b1 ≤ 0x9F
  else isCont b1

/-- Valid second byte of a 4-byte sequence (F0 forbids overlongs, F4 caps
at U+10FFFF). -/
def cont4ok (b0 b1 : Nat) : Bool :=
  if b0 = 0xF0 then 0x90 ≤ b1 && b1 ≤ 0xBF
  else if b0 = 0xF4 then 0x80 ≤ b1 && b1 ≤ 0x8F
  else isCont b1

/-- Decode one scalar (or one replacement for a maximal invalid subpart)
starting at lead byte `b0`; returns the decoded char and the bytes not yet
consumed. -/
def utf8Step (b0 : Nat) (rest : List Nat) : Char × List Nat :=
  if b0 < 0x80 then (Char.ofNat b0, rest)
  else if b0 < 0xC2 then (replChar, rest)
  else if b0 < 0xE0 then
    match rest with
    | [] => (replChar, [])
    | b1 :: tail1 =>
      if isCont b1 then (Char.ofNat ((b0 - 0xC0) * 0x40 + (b1 - 0x80)), tail1)
      else (replChar, rest)
  else if b0 < 0xF0 then
    match rest with
    | [] => (replChar, [])
    | b1 :: tail1 =>
      if cont3ok b0 b1 then
        match tail1 with
        | [] => (replChar, [])
        | b2 :: tail2 =>
          if isCont b2 then
            (Char.ofNat ((b0 - 0xE0) * 0x1000 + (b1 - 0x80) * 0x40 + (b2 - 0x80)),
              tail2)
          else (replChar, tail1)
      else (replChar, rest)
  else if b0 < 0xF5 then
    match rest with
    | [] => (replChar, [])
    | b1 :: tail1 =>
      if cont4ok b0 b1 then
        match tail1 with
        | [] => (replChar, [])
        | b2 :: tail2 =>
          if isCont b2 then
            match tail2 with
            | [] => (replChar, [])
            | b3 :: tail3 =>
              if isCont b3 then
                (Char.ofNat ((b0 - 0xF0) * 0x40000 + (b1 - 0x80) * 0x1000 +
                  (b2 - 0x80) * 0x40 + (b3 - 0x80)), tail3)
              else (replChar, tail2)
          else (replChar, tail1)
      else (replChar, rest)
  else (replChar, rest)

/-- `String::from_utf8_lossy`, fuel-structured (fuel = byte count
suffices, as each step consumes at least the lead byte). -/
def utf8LossyFuel : Nat → List Nat → List Char
  | 0, _ => []
  | _ + 1, [] => []
  | fuel + 1, b :: rest =>
    let s := utf8Step b rest
    s.1 :: utf8LossyFuel fuel s.2

def utf8Lossy (bytes : List Nat) : List Char :=
  utf8LossyFuel bytes.length bytes

/-- The byte-chunk path of `MessageStream::poll_next`: every chunk is
decoded with `from_utf8_lossy` on its own and fed to the retained-buffer
SSE parser. -/
def pollChunks (chunks : List (List Nat)) : List SseEvent × List Char :=
  feedAll [] (chunks.map utf8Lossy)

/-- C3 (failing input): the UTF-8 bytes of `"data: é\n\n"` split between
the two bytes of `é` (0xC3, 0xA9).  Fed as one chunk the decoded event's
data is `é`; fed as two chunks, each half of the codepoint is decoded
independently by `from_utf8_lossy` and becomes U+FFFD, so the event's data
is two replacement characters — the split codepoint is corrupted, and the
two byte-splittings of the same byte sequence decode to different events. -/
theorem utf8_chunk_split_corrupts :
    pollChunks [[0x64, 0x61, 0x74, 0x61, 0x3A, 0x20, 0xC3], [0xA9, 0x0A, 0x0A]] =
      ([⟨none, [replChar, replChar]⟩], []) ∧
    pollChunks [[0x64, 0x61, 0x74, 0x61, 0x3A, 0x20, 0xC3, 0xA9, 0x0A, 0x0A]] =
      ([⟨none, ['é']⟩], []) ∧
    pollChunks [[0x64, 0x61, 0x74, 0x61, 0x3A, 0x20, 0xC3], [0xA9, 0x0A, 0x0A]] ≠
      pollChunks [[0x64, 0x61, 0x74, 0x61, 0x3A, 0x20, 0xC3, 0xA9, 0x0A, 0x0A]] := by
  refine ⟨by decide, by decide, by decide⟩

/-! ## agent.rs: the turn loop of `Agent::run`

The loop is embedded as a deterministic function of per-turn scripts.  A
`TurnScript` fixes everything the environment decides during one
iteration: the stream items the provider yields (`Ok(event)` or
`Err(api_error)`), the select-point at which the cancellation token fires
(if it does), the user's prompt responses, the before_tool hook results,
whether cancellation fires inside a tool execution, and each tool's
output.  `serde_json::from_str` for accumulated tool-input JSON is an
oracle parameter (`jsonParse`); `unwrap_or_default` maps its failure to
JSON null exactly as agent.rs does. -/

structure Usage where
  input_tokens : Nat
  output_tokens : Nat
  cache_creation_input_tokens : Nat
  cache_read_input_tokens : Nat
deriving DecidableEq, Repr

def Usage.empty : Usage := ⟨0, 0, 0, 0⟩

/-- `Usage::add`. -/
def Usage.add (a b : Usage) : Usage :=
  ⟨a.input_tokens + b.input_tokens, a.output_tokens + b.output_tokens,
    a.cache_creation_input_tokens + b.cache_creation_input_tokens,
    a.cache_read_input_tokens + b.cache_read_input_tokens⟩

inductive StopReason where
  | endTurn
  | maxTokens
  | stopSequence
  | toolUse
deriving DecidableEq, Repr

inductive ContentDelta where
  | textDelta (text : String)
  | inputJsonDelta (jsonFragment : String)
  | thinkingDelta (thinking : String)
  | signatureDelta (signature : String)

/-- `StreamEvent` as consumed by the agent loop (`message_start` carries
only the usage the agent reads from it). -/
inductive StreamEvent where
  | messageStart (usage : Usage)
  | contentBlockStart (index : Nat) (content_block : ContentBlock)
  | contentBlockDelta (index : Nat) (delta : ContentDelta)
  | contentBlockStop (index : Nat)
  | messageDelta (stop_reason : Option StopReason) (usage : Option Usage)
  | messageStop
  | ping
  | errorEvent (error_type : String) (message : String)

inductive ToolOutputContent where
  | text (text : String)
  | image (source : ImageSource)

structure ToolOutput where
  content : List ToolOutputContent
  is_error : Bool

/-- The scratch accumulators of one turn of `Agent::run`. -/
structure StreamState where
  content_blocks : List ContentBlock
  current_text : String
  current_tool_name : String
  current_tool_id : String
  current_tool_json : String
  current_thinking : String
  current_signature : String
  in_thinking_block : Bool
  stop_reason : Option StopReason
  usage : Usage

def StreamState.init : StreamState :=
  ⟨[], "", "", "", "", "", "", false, none, Usage.empty⟩

/-- The per-event state update of the stream loop (observer emissions do
not affect state and are not modelled).  `jsonParse` stands for
`serde_json::from_str`; a parse failure defaults to JSON null. -/
def handleEvent (jsonParse : String → Option Json) (st : StreamState)
    (ev : StreamEvent) : StreamState :=
  match ev with
  | .messageStart u => { st with usage := st.usage.add u }
  | .contentBlockStart _ (.text _) => { st with current_text := "" }
  | .contentBlockStart _ (.thinking _ _) =>
    { st with current_thinking := "", current_signature := "", in_thinking_block := true }
  | .contentBlockStart _ (.toolUse id name _) =>
    { st with current_tool_id := id, current_tool_name := name, current_tool_json := "" }
  | .contentBlockStart _ _ => st
  | .contentBlockDelta _ (.textDelta t) => { st with current_text := st.current_text ++ t }
  | .contentBlockDelta _ (.inputJsonDelta p) =>
    { st with current_tool_json := st.current_tool_json ++ p }
  | .contentBlockDelta _ (.thinkingDelta t) =>
    { st with current_thinking := st.current_thinking ++ t }
  | .contentBlockDelta _ (.signatureDelta s) =>
    { st with current_signature := st.current_signature ++ s }
  | .contentBlockStop _ =>
    if st.in_thinking_block then
      { st with
        content_blocks :=
          if st.current_thinking.isEmpty then st.content_blocks
          else st.content_blocks ++ [.thinking st.current_thinking
            (if st.current_signature.isEmpty then none else some st.current_signature)],
        current_thinking := "", current_signature := "", in_thinking_block := false }
    else if ¬ st.current_text.isEmpty then
      { st with
        content_blocks := st.content_blocks ++ [.text st.current_text],
        current_text := "" }
    else if ¬ st.current_tool_id.isEmpty then
      { st with
        content_blocks := st.content_blocks ++
          [.toolUse st.current_tool_id st.current_tool_name
            ((jsonParse st.current_tool_json).getD .null)],
        current_tool_id := "", current_tool_name := "", current_tool_json := "" }
    else st
  | .messageDelta sr u =>
    { st with
      stop_reason := sr,
      usage := match u with
        | some uu => st.usage.add uu
        | none => st.usage }
  | .messageStop => st
  | .ping => st
  | .errorEvent _ _ => st

inductive StreamOutcome where
  | cancelled
  | apiFailed
  | ended (st : StreamState)

/-- The stream-consumption loop: at every iteration the select races the
cancellation token (modelled by `cancelAt`, counting the select points
until it fires) against the next stream item; an `Err` item or an
`error` event aborts with an API error; `None` (list exhausted) breaks. -/
def runStream (jsonParse : String → Option Json) :
    StreamState → List (Except ApiError StreamEvent) → Option Nat → StreamOutcome
  | _, _, some 0 => .cancelled
  | st, [], _ => .ended st
  | st, item :: rest, ca =>
    match item with
    | .error _ => .apiFailed
    | .ok (.errorEvent et msg) =>
      match et, msg with
      | _, _ => .apiFailed
    | .ok ev => runStream jsonParse (handleEvent jsonParse st ev) rest (ca.map (· - 1))

/-- The ToolUse triples collected from the committed assistant blocks. -/
def toolUsesOf (blocks : List ContentBlock) : List (String × String × Json) :=
  blocks.filterMap fun b =>
    match b with
    | .toolUse id name input => some (id, name, input)
    | _ => none

def toolResultContent (c : ToolOutputContent) : ToolResultContent :=
  match c with
  | .text t => .text t
  | .image src => .image src

/-- The error ToolResult blocks agent.rs appends on the block paths. -/
def planBlockResult (tid : String) : ContentBlock :=
  .toolResult tid [.text "Blocked: plan mode only allows read-only tools"] (some true)

def permissionBlockResult (tid reason : String) : ContentBlock :=
  .toolResult tid [.text ("Permission denied: " ++ reason)] (some true)

def userDenyResult (tid : String) : ContentBlock :=
  .toolResult tid [.text "Permission denied by user"] (some true)

def hookBlockResult (tid reason : String) : ContentBlock :=
  .toolResult tid [.text ("Blocked by hook: " ++ reason)] (some true)

def execResult (tid : String) (output : ToolOutput) : ContentBlock :=
  .toolResult tid (output.content.map toolResultContent)
    (if output.is_error then some true else none)

inductive PromptResponse where
  | allowOnce
  | alwaysAllow
  | deny
deriving DecidableEq, Repr

/-- One iteration's environment decisions. -/
structure TurnScript where
  items : List (Except ApiError StreamEvent)
  cancelAt : Option Nat
  promptResponses : Nat → PromptResponse
  beforeHookDeny : Nat → Option String
  cancelDuringTool : Nat → Bool
  toolOutputs : Nat → ToolOutput

/-- The execution tail of one tool (steps 2-4 for that tool): the
before_tool hooks (always Ok under a ludicrous engine), the cancellation
race around `execute`, and the ToolResult built from the output (an `Err`
from execute is already collapsed to an error ToolOutput as in agent.rs). -/
def toolExec (script : TurnScript) (k : Nat) (tid : String) (eng : PermissionEngine) :
    Except Unit (ContentBlock × PermissionEngine) :=
  match (if eng.ludicrous then none else script.beforeHookDeny k) with
  | some reason => .ok (hookBlockResult tid reason, eng)
  | none =>
    if script.cancelDuringTool k then .error ()
    else .ok (execResult tid (script.toolOutputs k), eng)

/-- The body of the dispatch loop for the k-th ToolUse: plan-mode safety
net, permission check, prompt flow (`AlwaysAllow` adds a Permit session
rule before proceeding), hooks and execution.  Returns the single
ToolResult this tool contributes plus the possibly-grown engine, or the
cancellation abort. -/
def toolStep (ro_mode : Bool) (registryRO : String → Bool) (script : TurnScript)
    (eng : PermissionEngine) (k : Nat) (tid tname : String) (tinput : Json) :
    Except Unit (ContentBlock × PermissionEngine) :=
  let is_read_only := registryRO tname
  if ro_mode ∧ ¬ is_read_only then .ok (planBlockResult tid, eng)
  else
    match eng.check tname tinput is_read_only with
    | .permit => toolExec script k tid eng
    | .block reason => .ok (permissionBlockResult tid reason, eng)
    | .prompt _ _ =>
      match script.promptResponses k with
      | .allowOnce => toolExec script k tid eng
      | .alwaysAllow => toolExec script k tid (eng.add_session_rule ⟨tname, none, .permit⟩)
      | .deny => .ok (userDenyResult tid, eng)

/-- The tool-dispatch loop of `Agent::run` over the collected ToolUses,
sequential and in order: each tool contributes exactly one ToolResult
(blocked paths `continue`, the executed path appends its result), and a
cancellation inside a tool aborts the whole dispatch. -/
def dispatchTools (ro_mode : Bool) (registryRO : String → Bool) (script : TurnScript) :
    PermissionEngine → List (String × String × Json) → Nat →
      Except Unit (List ContentBlock × PermissionEngine)
  | eng, [], _ => .ok ([], eng)
  | eng, (tid, tname, tinput) :: rest, k =>
    match toolStep ro_mode registryRO script eng k tid tname tinput with
    | .error () => .error ()
    | .ok (res, eng') =>
      match dispatchTools ro_mode registryRO script eng' rest (k + 1) with
      | .error () => .error ()
      | .ok (results, engF) => .ok (res :: results, engF)

inductive RunError where
  | api
  | cancelled
deriving DecidableEq, Repr

inductive TurnOutcome where
  | done
  | continueLoop
  | failed (e : RunError)
deriving DecidableEq, Repr

/-- One iteration of `Agent::run`: consume the stream (racing
cancellation), commit the assistant message when any block was completed,
stop when there are no tool uses or the stop reason is `end_turn`,
otherwise dispatch the tools; on cancellation inside a tool pop the
trailing assistant message (if it is one); on completed dispatch append
the tool results as one user message. -/
def runTurn (ro_mode : Bool) (registryRO : String → Bool)
    (jsonParse : String → Option Json) (eng : PermissionEngine)
    (msgs : List Message) (script : TurnScript) :
    List Message × PermissionEngine × TurnOutcome :=
  match runStream jsonParse StreamState.init script.items script.cancelAt with
  | .cancelled => (msgs, eng, .failed .cancelled)
  | .apiFailed => (msgs, eng, .failed .api)
  | .ended st =>
    let msgs1 :=
      match st.content_blocks with
      | [] => msgs
      | blocks => msgs ++ [⟨.assistant, blocks⟩]
    match toolUsesOf st.content_blocks with
    | [] => (msgs1, eng, .done)
    | u :: us =>
      if st.stop_reason = some .endTurn then (msgs1, eng, .done)
      else
        match dispatchTools ro_mode registryRO script eng (u :: us) 0 with
        | .error () =>
          let msgs2 :=
            match msgs1.getLast? with
            | some m => if m.role = .assistant then msgs1.dropLast else msgs1
            | none => msgs1
          (msgs2, eng, .failed .cancelled)
        | .ok (results, eng') =>
          (msgs1 ++ [⟨.user, results⟩], eng', .continueLoop)

/-- `MAX_TOOL_LOOPS` from agent.rs. -/
def MAX_TOOL_LOOPS : Nat := 50

/-- The iteration loop of `Agent::run` over the scripted provider turns.
Reaching the loop bound returns `Ok` (after an observer `Error` event); a
scripts list shorter than the iterations taken is a modelling artifact
treated as the loop bound. -/
def runLoop (ro_mode : Bool) (registryRO : String → Bool)
    (jsonParse : String → Option Json) :
    Nat → PermissionEngine → List Message → List TurnScript →
      List Message × Except RunError Unit
  | 0, _, msgs, _ => (msgs, .ok ())
  | _ + 1, _, msgs, [] => (msgs, .ok ())
  | fuel + 1, eng, msgs, script :: rest =>
    match runTurn ro_mode registryRO jsonParse eng msgs script with
    | (msgs', _, .failed e) => (msgs', .error e)
    | (msgs', _, .done) => (msgs', .ok ())
    | (msgs', eng', .continueLoop) => runLoop ro_mode registryRO jsonParse fuel eng' msgs' rest

/-- `Agent::run` on the messages vector: iterate up to `MAX_TOOL_LOOPS`. -/
def Agent.run (ro_mode : Bool) (registryRO : String → Bool)
    (jsonParse : String → Option Json) (eng : PermissionEngine)
    (msgs : List Message) (scripts : List TurnScript) :
    List Message × Except RunError Unit :=
  runLoop ro_mode registryRO jsonParse MAX_TOOL_LOOPS eng msgs scripts

/-! ### C1/C2 lemmas -/

/-- The tool_use_id of a ToolResult block. -/
def toolResultId : ContentBlock → Option String
  | .toolResult tid _ _ => some tid
  | _ => none

theorem toolExec_result_id {script : TurnScript} {k : Nat} {tid : String}
    {eng : PermissionEngine} {res : ContentBlock} {eng' : PermissionEngine}
    (h : toolExec script k tid eng = .ok (res, eng')) : toolResultId res = some tid := by
  unfold toolExec at h
  cases hh : (if eng.ludicrous then none else script.beforeHookDeny k) with
  | some reason =>
    rw [hh] at h
    simp only [Except.ok.injEq, Prod.mk.injEq] at h
    rw [← h.1]; rfl
  | none =>
    rw [hh] at h
    by_cases hc : script.cancelDuringTool k
    · rw [if_pos hc] at h; simp at h
    · rw [if_neg hc] at h
      simp only [Except.ok.injEq, Prod.mk.injEq] at h
      rw [← h.1]; rfl

theorem toolStep_result_id {ro_mode : Bool} {registryRO : String → Bool}
    {script : TurnScript} {eng : PermissionEngine} {k : Nat} {tid tname : String}
    {tinput : Json} {res : ContentBlock} {eng' : PermissionEngine}
    (h : toolStep ro_mode registryRO script eng k tid tname tinput = .ok (res, eng')) :
    toolResultId res = some tid := by
  unfold toolStep at h
  by_cases hpm : ro_mode ∧ ¬ registryRO tname
  · rw [if_pos hpm] at h
    simp only [Except.ok.injEq, Prod.mk.injEq] at h
    rw [← h.1]; rfl
  · rw [if_neg hpm] at h
    cases hck : eng.check tname tinput (registryRO tname) with
    | permit => rw [hck] at h; exact toolExec_result_id h
    | block reason =>
      rw [hck] at h
      simp only [Except.ok.injEq, Prod.mk.injEq] at h
      rw [← h.1]; rfl
    | prompt t d =>
      rw [hck] at h
      cases hpr : script.promptResponses k with
      | allowOnce => rw [hpr] at h; exact toolExec_result_id h
      | alwaysAllow => rw [hpr] at h; exact toolExec_result_id h
      | deny =>
        rw [hpr] at h
        simp only [Except.ok.injEq, Prod.mk.injEq] at h
        rw [← h.1]; rfl

theorem dispatchTools_ids (ro_mode : Bool) (registryRO : String → Bool)
    (script : TurnScript) :
    ∀ (uses : List (String × String × Json)) (eng : PermissionEngine) (k : Nat)
      (results : List ContentBlock) (engF : PermissionEngine),
      dispatchTools ro_mode registryRO script eng uses k = .ok (results, engF) →
      results.map toolResultId = uses.map (fun u => some u.1) := by
  intro uses
  induction uses with
  | nil =>
    intro eng k results engF h
    simp only [dispatchTools, Except.ok.injEq, Prod.mk.injEq] at h
    rw [← h.1]
    rfl
  | cons u rest ih =>
    intro eng k results engF h
    obtain ⟨tid, tname, tinput⟩ := u
    rw [show dispatchTools ro_mode registryRO script eng ((tid, tname, tinput) :: rest) k =
      (match toolStep ro_mode registryRO script eng k tid tname tinput with
       | .error () => .error ()
       | .ok (res, eng') =>
         match dispatchTools ro_mode registryRO script eng' rest (k + 1) with
         | .error () => .error ()
         | .ok (results, engF) => .ok (res :: results, engF)) from rfl] at h
    cases hts : toolStep ro_mode registryRO script eng k tid tname tinput with
    | error e => cases e; simp only [hts] at h; exact absurd h (by simp)
    | ok p =>
      obtain ⟨res, eng'⟩ := p
      simp only [hts] at h
      cases hd : dispatchTools ro_mode registryRO script eng' rest (k + 1) with
      | error e => cases e; simp only [hd] at h; exact absurd h (by simp)
      | ok q =>
        obtain ⟨rs, eF⟩ := q
        simp only [hd, Except.ok.injEq, Prod.mk.injEq] at h
        rw [← h.1]
        simp only [List.map_cons]
        rw [toolStep_result_id hts, ih eng' (k + 1) rs eF hd]

/-- Shape of a committed iteration: exactly one assistant message (the
completed blocks, necessarily containing the tool uses) and one user
message whose ToolResults answer the ToolUses one-for-one, in order. -/
theorem runTurn_continue_shape {ro_mode : Bool} {registryRO : String → Bool}
    {jsonParse : String → Option Json} {eng : PermissionEngine} {msgs : List Message}
    {script : TurnScript} {msgs' : List Message} {eng' : PermissionEngine}
    (h : runTurn ro_mode registryRO jsonParse eng msgs script =
      (msgs', eng', .continueLoop)) :
    ∃ blocks results,
      blocks ≠ [] ∧
      msgs' = msgs ++ [⟨.assistant, blocks⟩, ⟨.user, results⟩] ∧
      results.map toolResultId = (toolUsesOf blocks).map (fun u => some u.1) := by
  unfold runTurn at h
  cases hs : runStream jsonParse StreamState.init script.items script.cancelAt with
  | cancelled => simp only [hs, Prod.mk.injEq] at h; exact absurd h.2.2 (by simp)
  | apiFailed => simp only [hs, Prod.mk.injEq] at h; exact absurd h.2.2 (by simp)
  | ended st =>
    simp only [hs] at h
    cases hbl : st.content_blocks with
    | nil =>
      simp only [hbl, toolUsesOf, List.filterMap_nil, Prod.mk.injEq] at h
      exact absurd h.2.2 (by simp)
    | cons b bs =>
      simp only [hbl] at h
      cases huse : toolUsesOf (b :: bs) with
      | nil =>
        simp only [huse, Prod.mk.injEq] at h
        exact absurd h.2.2 (by simp)
      | cons u us =>
        simp only [huse] at h
        by_cases hsr : st.stop_reason = some .endTurn
        · rw [if_pos hsr] at h
          simp only [Prod.mk.injEq] at h
          exact absurd h.2.2 (by simp)
        · rw [if_neg hsr] at h
          cases hd : dispatchTools ro_mode registryRO script eng (u :: us) 0 with
          | error e =>
            cases e
            simp only [hd, Prod.mk.injEq] at h
            exact absurd h.2.2 (by simp)
          | ok q =>
            obtain ⟨results, engF⟩ := q
            simp only [hd, Prod.mk.injEq] at h
            refine ⟨b :: bs, results, by simp, ?_, ?_⟩
            · rw [← h.1]; simp
            · rw [huse]
              exact dispatchTools_ids ro_mode registryRO script (u :: us) eng 0
                results engF hd

/-- A turn that ends in `Err(Cancelled)` leaves the messages vector
exactly as it was: the stream path never pushed, and the tool path pops
the assistant message it had just pushed. -/
theorem runTurn_cancelled_unchanged {ro_mode : Bool} {registryRO : String → Bool}
    {jsonParse : String → Option Json} {eng : PermissionEngine} {msgs : List Message}
    {script : TurnScript} {msgs' : List Message} {eng' : PermissionEngine}
    (h : runTurn ro_mode registryRO jsonParse eng msgs script =
      (msgs', eng', .failed .cancelled)) :
    msgs' = msgs := by
  unfold runTurn at h
  cases hs : runStream jsonParse StreamState.init script.items script.cancelAt with
  | cancelled => simp only [hs, Prod.mk.injEq] at h; exact h.1.symm
  | apiFailed =>
    simp only [hs, Prod.mk.injEq] at h
    exact absurd h.2.2 (by simp)
  | ended st =>
    simp only [hs] at h
    cases hbl : st.content_blocks with
    | nil =>
      simp only [hbl, toolUsesOf, List.filterMap_nil, Prod.mk.injEq] at h
      exact absurd h.2.2 (by simp)
    | cons b bs =>
      simp only [hbl] at h
      cases huse : toolUsesOf (b :: bs) with
      | nil =>
        simp only [huse, Prod.mk.injEq] at h
        exact absurd h.2.2 (by simp)
      | cons u us =>
        simp only [huse] at h
        by_cases hsr : st.stop_reason = some .endTurn
        · rw [if_pos hsr] at h
          simp only [Prod.mk.injEq] at h
          exact absurd h.2.2 (by simp)
        · rw [if_neg hsr] at h
          cases hd : dispatchTools ro_mode registryRO script eng (u :: us) 0 with
          | ok q =>
            obtain ⟨results, engF⟩ := q
            simp only [hd, Prod.mk.injEq] at h
            exact absurd h.2.2 (by simp)
          | error e =>
            cases e
            simp only [hd, Prod.mk.injEq] at h
            rw [← h.1]
            rw [List.getLast?_concat]
            simp only [if_pos rfl]
            exact List.dropLast_concat ..

/-- The messages a run appends beyond its starting vector when it ends in
cancellation: whole committed iterations only, each an assistant message
followed by a user message. -/
inductive CommittedTail : List Message → Prop
  | nil : CommittedTail []
  | pair (a u : List ContentBlock) (rest : List Message) :
      CommittedTail rest →
      CommittedTail (⟨.assistant, a⟩ :: ⟨.user, u⟩ :: rest)

theorem runLoop_cancelled_tail (ro_mode : Bool) (registryRO : String → Bool)
    (jsonParse : String → Option Json) :
    ∀ (fuel : Nat) (eng : PermissionEngine) (msgs : List Message)
      (scripts : List TurnScript) (msgs' : List Message),
      runLoop ro_mode registryRO jsonParse fuel eng msgs scripts =
        (msgs', .error .cancelled) →
      ∃ tail, msgs' = msgs ++ tail ∧ CommittedTail tail := by
  intro fuel
  induction fuel with
  | zero =>
    intro eng msgs scripts msgs' h
    simp only [runLoop, Prod.mk.injEq] at h
    exact absurd h.2 (by simp)
  | succ fuel' ih =>
    intro eng msgs scripts msgs' h
    cases scripts with
    | nil =>
      simp only [runLoop, Prod.mk.injEq] at h
      exact absurd h.2 (by simp)
    | cons script rest =>
      rw [show runLoop ro_mode registryRO jsonParse (fuel' + 1) eng msgs (script :: rest) =
        (match runTurn ro_mode registryRO jsonParse eng msgs script with
         | (msgs', _, .failed e) => (msgs', .error e)
         | (msgs', _, .done) => (msgs', .ok ())
         | (msgs', eng', .continueLoop) =>
           runLoop ro_mode registryRO jsonParse fuel' eng' msgs' rest) from rfl] at h
      cases hT : runTurn ro_mode registryRO jsonParse eng msgs script with
      | mk m1 p =>
        obtain ⟨e1, o1⟩ := p
        cases o1 with
        | done =>
          simp only [hT, Prod.mk.injEq] at h
          exact absurd h.2 (by simp)
        | failed e =>
          simp only [hT, Prod.mk.injEq, Except.error.injEq] at h
          cases e with
          | api => exact absurd h.2 (by simp)
          | cancelled =>
            have := runTurn_cancelled_unchanged hT
            exact ⟨[], by rw [← h.1, this, List.append_nil], CommittedTail.nil⟩
        | continueLoop =>
          simp only [hT] at h
          obtain ⟨blocks, results, _, hshape, _⟩ := runTurn_continue_shape hT
          obtain ⟨tail, htail, hct⟩ := ih e1 m1 rest msgs' h
          refine ⟨⟨.assistant, blocks⟩ :: ⟨.user, results⟩ :: tail, ?_, ?_⟩
          · rw [htail, hshape]; simp
          · exact CommittedTail.pair blocks results tail hct

/-! ### Claim theorems: C1, C2 -/

/-- C1: whenever an iteration of the agent loop commits (an assistant
message containing ToolUse blocks was appended and the turn proceeded
through tool dispatch to the follow-up user message), the committed pair
is exactly one assistant message carrying the completed blocks and one
user message holding one ToolResult per ToolUse with matching
`tool_use_id`, in the ToolUse order — whether each tool executed or was
blocked by plan mode, a permission rule, a user denial at the prompt, or a
before_tool hook veto.  (Every committed turn of every `Agent.run` is a
`runTurn` with outcome `continueLoop`, so this covers each turn of each
run.) -/
theorem turn_commits_matching_tool_results (ro_mode : Bool)
    (registryRO : String → Bool) (jsonParse : String → Option Json)
    (eng : PermissionEngine) (msgs : List Message) (script : TurnScript)
    (msgs' : List Message) (eng' : PermissionEngine)
    (h : runTurn ro_mode registryRO jsonParse eng msgs script =
      (msgs', eng', .continueLoop)) :
    ∃ blocks results,
      blocks ≠ [] ∧
      msgs' = msgs ++ [⟨.assistant, blocks⟩, ⟨.user, results⟩] ∧
      results.map toolResultId = (toolUsesOf blocks).map (fun u => some u.1) :=
  runTurn_continue_shape h

/-- C2: the two cancellation guarantees of `Agent::run`.  First, any
single iteration that returns `Err(Cancelled)` leaves the messages vector
exactly as it found it (stream path: nothing was pushed; tool path: the
just-pushed assistant message is popped and no tool-result user message
exists for that turn).  Second, whenever a whole run returns
`Err(Cancelled)`, the final vector is the pre-run vector plus the whole
committed iterations only — assistant/user pairs — and nothing from the
cancelled turn. -/
theorem run_cancelled_messages (ro_mode : Bool) (registryRO : String → Bool)
    (jsonParse : String → Option Json) :
    (∀ (eng : PermissionEngine) (msgs : List Message) (script : TurnScript)
      (msgs' : List Message) (eng' : PermissionEngine),
      runTurn ro_mode registryRO jsonParse eng msgs script =
        (msgs', eng', .failed .cancelled) → msgs' = msgs) ∧
    (∀ (eng : PermissionEngine) (msgs : List Message) (scripts : List TurnScript)
      (msgs' : List Message),
      Agent.run ro_mode registryRO jsonParse eng msgs scripts =
        (msgs', .error .cancelled) →
      ∃ tail, msgs' = msgs ++ tail ∧ CommittedTail tail) :=
  ⟨fun _ _ _ _ _ h => runTurn_cancelled_unchanged h,
    fun eng msgs scripts msgs' h =>
      runLoop_cancelled_tail ro_mode registryRO jsonParse MAX_TOOL_LOOPS
        eng msgs scripts msgs' h⟩

/-- Witness for C1: a single Echo tool call under a ludicrous engine
commits the assistant ToolUse and one matching ToolResult. -/
theorem turn_commits_matching_tool_results_witness :
    ∃ blocks results,
      blocks ≠ [] ∧
      ([⟨.assistant, [.toolUse "t1" "Echo" .null]⟩,
        ⟨.user, [.toolResult "t1" [.text "hi"] none]⟩] : List Message) =
        [] ++ [⟨.assistant, blocks⟩, ⟨.user, results⟩] ∧
      results.map toolResultId = (toolUsesOf blocks).map (fun u => some u.1) :=
  turn_commits_matching_tool_results false (fun _ => true) (fun _ => none)
    ⟨[], [], true⟩ []
    ⟨[.ok (.contentBlockStart 0 (.toolUse "t1" "Echo" .null)),
      .ok (.contentBlockStop 0), .ok (.messageDelta (some .toolUse) none)],
      none, fun _ => .allowOnce, fun _ => none, fun _ => false,
      fun _ => ⟨[.text "hi"], false⟩⟩
    [⟨.assistant, [.toolUse "t1" "Echo" .null]⟩,
      ⟨.user, [.toolResult "t1" [.text "hi"] none]⟩]
    ⟨[], [], true⟩ rfl

/-- Witness for C2: a run cancelled inside the Echo tool execution pops
the just-pushed assistant message and returns the pre-run vector. -/
theorem run_cancelled_messages_witness :
    ∃ tail, ([⟨.user, [.text "hello"]⟩] : List Message) =
      [⟨.user, [.text "hello"]⟩] ++ tail ∧ CommittedTail tail :=
  (run_cancelled_messages false (fun _ => true) (fun _ => none)).2
    ⟨[], [], true⟩ [⟨.user, [.text "hello"]⟩]
    [⟨[.ok (.contentBlockStart 0 (.toolUse "t1" "Echo" .null)),
      .ok (.contentBlockStop 0), .ok (.messageDelta (some .toolUse) none)],
      none, fun _ => .allowOnce, fun _ => none, fun _ => true,
      fun _ => ⟨[.text "hi"], false⟩⟩]
    [⟨.user, [.text "hello"]⟩] rfl

end Chet
